import Mathlib

/-!
Verification of the QuickSIN keyword-scoring utilities (`google_asr_sin.py`).

Python strings are embedded as `List Char`; Python `dict`s as association
lists with replace-in-place insertion; code that can raise an exception is
embedded as an `Option`-valued function (`none` models an uncaught
exception).  The `print` data-quality warning in `ingest_spin_keyword_lists`
is modelled as an explicit warning log carried alongside the table.
-/

abbrev Str := List Char

/-- Characters stripped by Python's `str.strip()` (space, tab, newline,
carriage return, vertical tab, form feed). -/
def pyIsSpace (c : Char) : Bool :=
  decide (c.toNat = 32 ∨ c.toNat = 9 ∨ c.toNat = 10 ∨ c.toNat = 13 ∨
    c.toNat = 11 ∨ c.toNat = 12)

/-- Python `str.strip()`: drop leading and trailing whitespace. -/
def pyStrip (s : Str) : Str :=
  ((s.dropWhile pyIsSpace).reverse.dropWhile pyIsSpace).reverse

/-- Python `str.lower()` (ASCII letters; the table is ASCII). -/
def pyLower (s : Str) : Str := s.map Char.toLower

/-- Python `s.split(sep)` for a single-character separator: keeps empty
pieces, and `[] ↦ [[]]`. -/
def splitOnChar (sep : Char) : Str → List Str
  | [] => [[]]
  | c :: rest =>
    match splitOnChar sep rest with
    | [] => [[]]
    | p :: ps => if c = sep then [] :: p :: ps else (c :: p) :: ps

def digitsToNat (s : Str) : Nat := s.foldl (fun a c => 10 * a + (c.toNat - 48)) 0

def parseDigits (s : Str) : Option Nat :=
  if s.isEmpty then none
  else if s.all Char.isDigit then some (digitsToNat s) else none

/-- Python `int(s)` on a string: strip whitespace, optional sign, then
digits; anything else raises `ValueError` (modelled as `none`). -/
def pyInt (s : Str) : Option Int :=
  match pyStrip s with
  | '-' :: rest => (parseDigits rest).map fun n => -(n : Int)
  | '+' :: rest => (parseDigits rest).map fun n => (n : Int)
  | t => (parseDigits t).map fun n => (n : Int)

/-- `word_alternatives` from the source: split a token on `/` into its
accepted spellings, or return the token alone when no `/` is present. -/
def word_alternatives (words : Str) : List Str :=
  if '/' ∈ words then splitOnChar '/' words else [words]

/-- Python `dict` insertion: overwrite in place when the key is present,
append otherwise. -/
def dictInsert {K V : Type} [DecidableEq K] : List (K × V) → K → V → List (K × V)
  | [], k, v => [(k, v)]
  | (k', v') :: rest, k, v =>
    if k' = k then (k, v) :: rest else (k', v') :: dictInsert rest k v

def dictLookup {K V : Type} [DecidableEq K] : List (K × V) → K → Option V
  | [], _ => none
  | (k', v) :: rest, k => if k' = k then some v else dictLookup rest k

/-- One keyword entry: the accepted spellings of one keyword slot. -/
abbrev KeywordEntry := List Str

/-- The state built by `ingest_spin_keyword_lists`: the keyword table plus
the log of data-quality warnings it printed. -/
structure IngestState where
  dict : List ((Int × Int) × List KeywordEntry)
  warnings : List (Int × Int × List KeywordEntry)
deriving DecidableEq, Repr

/-- The body of the `for line in key_word_list` loop of
`ingest_spin_keyword_lists`: strip and lowercase the line, skip it when
blank, parse the list index from columns 1..2 and the sentence index from
columns 5..6, split the rest on spaces, drop empty tokens, turn each token
into its alternatives, warn when the count is not 5, and insert. -/
def ingest_line (st : IngestState) (raw : Str) : Option IngestState :=
  let line := pyLower (pyStrip raw)
  if line = [] then some st
  else
    match pyInt ((line.drop 1).take 2), pyInt ((line.drop 5).take 2) with
    | some list_number, some sentence_number =>
      let key_words := (splitOnChar ' ' (line.drop 7)).filter (fun w => w ≠ [])
      let key_list := key_words.map word_alternatives
      some { dict := dictInsert st.dict (list_number, sentence_number) key_list,
             warnings :=
               if key_list.length ≠ 5
               then st.warnings ++ [(list_number, sentence_number, key_list)]
               else st.warnings }
    | _, _ => none

/-- `ingest_spin_keyword_lists` from the source: fold the loop body over the
lines; `none` models an uncaught exception aborting the build. -/
def ingest_spin_keyword_lists (lines : List Str) : Option IngestState :=
  lines.foldlM ingest_line { dict := [], warnings := [] }

/-- The embedded `key_word_list` text, already split on newlines exactly as
`""" ... """.split('\n')` produces it (leading and trailing empty line
included, blank separator lines included). -/
def key_word_list : List Str :=
  [ ""
  , "L 0 S 0  white silk jacket any shoes"
  , "L 0 S 1  child crawled into dense grass"
  , "L 0 S 2  Footprints show/showed path took beach"
  , "L 0 S 3  event near edge fresh air"
  , "L 0 S 4  band Steel 3/three inches/in wide"
  , "L 0 S 5  weight package seen high scale"
  , ""
  , "L 1 S 0  tear/Tara thin sheet yellow pad"
  , "L 1 S 1  cruise Waters Sleek yacht fun"
  , "L 1 S 2  streak color down left Edge"
  , "L 1 S 3  done before boy/boys see it"
  , "L 1 S 4  Crouch before jump miss mark"
  , "L 1 S 5  square peg settle round hole"
  , ""
  , "L 2 S 0  pitch straw through door stable"
  , "L 2 S 1  sink thing which pile/piled dishes"
  , "L 2 S 2  post no bills office wall"
  , "L 2 S 3  dimes showered/shower down all sides"
  , "L 2 S 4  pick card slip under pack/Pact"
  , "L 2 S 5  store jammed before sale start"
  , ""
  , "L 3 S 0  sense smell better than touch"
  , "L 3 S 1  picked up dice second roll"
  , "L 3 S 2  drop ashes worn/Warren Old rug"
  , "L 3 S 3  couch cover Hall drapes blue"
  , "L 3 S 4  stems Tall Glasses cracked broke"
  , "L 3 S 5  cleats sank/sink deeply soft turf"
  , ""
  , "L 4 S 0  have better than wait Hope"
  , "L 4 S 1  screen before fire kept Sparks"
  , "L 4 S 2  thick glasses helped/help read print/prints"
  , "L 4 S 3  chair looked strong no bottom"
  , "L 4 S 4  told wild Tales/tails frighten him"
  , "L 4 S 5  force equal would move Earth"
  , ""
  , "L 5 S 0  leaf drifts along slow spin"
  , "L 5 S 1  pencil cut sharp both ends"
  , "L 5 S 2  down road way grain farmer"
  , "L 5 S 3  best method fix place clips"
  , "L 5 S 4  if Mumble your speech lost"
  , "L 5 S 5  toad Frog hard tell apart"
  , ""
  , "L 6 S 0  kite dipped swayed/suede stayed aloft/loft"
  , "L 6 S 1  beatle/beetle drowned hot June/Tunes sun/son"
  , "L 6 S 2  theft Pearl pin Kept Secret"
  , "L 6 S 3  wide grin earned many friends"
  , "L 6 S 4  hurdle pit aid long Pole"
  , "L 6 S 5  Peep/keep under tent see Clown"
  , ""
  , "L 7 S 0  sun came light Eastern sky"
  , "L 7 S 1  stale smell old beer lingers"
  , "L 7 S 2  desk firm on shaky floor"
  , "L 7 S 3  list names carved around base"
  , "L 7 S 4  news struct/struck out Restless Minds"
  , "L 7 S 5  Sand drifts/Drift over sill/sale house"
  , ""
  , "L 8 S 0  take shelter tent keep still"
  , "L 8 S 1  Little Tales/tails they tell false"
  , "L 8 S 2  press pedal with left foot"
  , "L 8 S 3  black trunk fell from Landing/landings"
  , "L 8 S 4  cheap clothes flashy/flash don't last"
  , "L 8 S 5  night alarm roused/roust deep sleep"
  , ""
  , "L 9 S 0  dots light betray/betrayed black cat"
  , "L 9 S 1  put chart mantle Tack down"
  , "L 9 S 2  steady drip worse drenching rain"
  , "L 9 S 3  flat pack less luggage space"
  , "L 9 S 4  gloss/glass top made unfit read"
  , "L 9 S 5  Seven Seals stamped great sheets"
  , ""
  , "L10 S 0  marsh freeze when cold enough"
  , "L10 S 1  gray mare walked before colt/cold"
  , "L10 S 2  bottles hold four/for kinds rum"
  , "L10 S 3  wheeled/wheled bike past winding road"
  , "L10 S 4  throw used paper cup plate"
  , "L10 S 5  wall phone ring loud often"
  , ""
  , "L11 S 0  hinge door creaked old age"
  , "L11 S 1  bright lanterns Gay dark lawn"
  , "L11 S 2  offered proof  form large chart"
  , "L11 S 3  their eyelids droop/drop want sleep"
  , "L11 S 4  many ways do these things"
  , "L11 S 5  we like see clear weather"
  , ""
  ].map String.data

/-- Module-level `all_keyword_dict = ingest_spin_keyword_lists(key_word_list)`. -/
def all_keyword_dict : Option IngestState := ingest_spin_keyword_lists key_word_list

/-- The table held by an ingest result (`[]` when the build aborted). -/
def tableOf (o : Option IngestState) : List ((Int × Int) × List KeywordEntry) :=
  match o with
  | none => []
  | some st => st.dict

/-- Joining with a separator character, inverse to `splitOnChar`. -/
def sepJoin (sep : Char) : List Str → Str
  | [] => []
  | [x] => x
  | x :: y :: xs => x ++ sep :: sepJoin sep (y :: xs)

/-- A duration-like proto time value; the `total_seconds` field mirrors the
`total_seconds()` call made by `parse_time`. -/
structure TimeProto where
  total_seconds : ℚ
deriving DecidableEq, Repr

/-- `parse_time` from the source. -/
def parse_time (time_proto : TimeProto) : ℚ := time_proto.total_seconds

/-- One timed word hypothesis of a recognition alternative. -/
structure WordInfo where
  word : Str
  start_offset : TimeProto
  end_offset : TimeProto
deriving DecidableEq, Repr

/-- One ranked alternative of a result segment. -/
structure SpeechAlternative where
  words : List WordInfo
  transcript : Str
deriving DecidableEq, Repr

/-- One result segment; `alternatives = none` models a response object whose
`alternatives` attribute is absent or unreadable (the `except` branch). -/
structure SpeechResult where
  alternatives : Option (List SpeechAlternative)
deriving DecidableEq, Repr

/-- A recognition response: an ordered list of result segments. -/
structure RecognizeResponse where
  results : List SpeechResult
deriving DecidableEq, Repr, Inhabited

/-- `RecogResult` dataclass from the source. -/
structure RecogResult where
  word : Str
  start_time : ℚ
  end_time : ℚ
deriving DecidableEq, Repr

/-- The inner `for word in a_result.alternatives[0].words` loop: append one
lowercased `RecogResult` per word and track the `end_time` variable, which
persists across loop iterations (and across segments). -/
def processWords : List WordInfo → List RecogResult → Option ℚ → List RecogResult × Option ℚ
  | [], acc, lastEnd => (acc, lastEnd)
  | w :: rest, acc, _ =>
    processWords rest
      (acc ++ [⟨pyLower w.word, parse_time w.start_offset, parse_time w.end_offset⟩])
      (some (parse_time w.end_offset))

/-- The outer `for a_result in response.results` loop of `parse_transcript`:
skip segments with missing or empty alternatives, process the first
alternative's words, then append the `'.'` sentinel built from the current
`end_time` variable; `none` models the `NameError` raised when the sentinel
is built before `end_time` was ever assigned. -/
def goResults : List SpeechResult → List RecogResult → Option ℚ → Option (List RecogResult)
  | [], acc, _ => some acc
  | r :: rest, acc, lastEnd =>
    match r.alternatives with
    | none => goResults rest acc lastEnd
    | some [] => goResults rest acc lastEnd
    | some (alt :: _) =>
      match processWords alt.words acc lastEnd with
      | (_, none) => none
      | (acc', some e) => goResults rest (acc' ++ [⟨['.'], e, e⟩]) (some e)

/-- `parse_transcript` from the source. -/
def parse_transcript (response : RecognizeResponse) : Option (List RecogResult) :=
  goResults response.results [] none

/-- Python's `pat in s` substring test. -/
def containsSub (pat : Str) : Str → Bool
  | [] => decide (pat = [])
  | c :: rest => decide (List.take pat.length (c :: rest) = pat) || containsSub pat rest

/-- `os.path.basename`: the part of the path after the last `/`. -/
def basename (s : Str) : Str := (s.reverse.takeWhile (fun c => c ≠ '/')).reverse

/-- The `for f in all_wavs` loop of `recognize_all_spin`, also logging each
path passed to `asr_engine.RecognizeFile` in order. -/
def recognizeLoop (recognizeFile : Str → RecognizeResponse) :
    List Str → List (Str × RecognizeResponse) → List Str →
    List (Str × RecognizeResponse) × List Str
  | [], all_results, calls => (all_results, calls)
  | f :: rest, all_results, calls =>
    if containsSub "Calibration".data f then
      recognizeLoop recognizeFile rest all_results calls
    else
      recognizeLoop recognizeFile rest
        (dictInsert all_results (basename f) (recognizeFile f)) (calls ++ [f])

/-- `recognize_all_spin` from the source: returns the response dictionary
keyed by base name, paired with the log of recognition-collaborator calls. -/
def recognize_all_spin (all_wavs : List Str)
    (recognizeFile : Str → RecognizeResponse) :
    List (Str × RecognizeResponse) × List Str :=
  recognizeLoop recognizeFile all_wavs [] []

/-- Printable non-space ASCII; the character class the keyword tokens of the
table are drawn from. -/
def goodChar (c : Char) : Prop := 33 ≤ c.toNat ∧ c.toNat ≤ 126

/-- A well-formed `(gap, token)` piece of a table line: at least one space
before the token, a non-empty token of printable non-space ASCII. -/
def goodPiece (p : Nat × Str) : Prop :=
  1 ≤ p.1 ∧ p.2 ≠ [] ∧ ∀ c ∈ p.2, goodChar c

instance decGoodChar (c : Char) : Decidable (goodChar c) := by
  unfold goodChar
  infer_instance

instance decGoodPiece (p : Nat × Str) : Decidable (goodPiece p) := by
  unfold goodPiece
  infer_instance

def digitChar (n : Nat) : Char := Char.ofNat (48 + n)

/-- The seven-character `L<nn> S<n>` column layout used by the table. -/
def mkHeader (l s : Nat) : Str :=
  (if l < 10 then ['L', ' ', digitChar l]
   else ['L', digitChar (l / 10), digitChar (l % 10)]) ++ [' ', 'S', ' ', digitChar s]

/-- Tokens preceded by their separating runs of spaces. -/
def spaceJoin (ps : List (Nat × Str)) : Str :=
  ps.foldr (fun p acc => List.replicate p.1 ' ' ++ p.2 ++ acc) []

/-- A table line in the `L<nn> S<n>` column layout followed by
space-separated tokens. -/
def mkLine (l s : Nat) (ps : List (Nat × Str)) : Str := mkHeader l s ++ spaceJoin ps

/-- The keyword entries the tokens of a line should produce: lowercase each
token, then split it into its alternatives. -/
def entriesOf (ps : List (Nat × Str)) : List KeywordEntry :=
  ps.map fun p => word_alternatives (pyLower p.2)

def demoPieces : List (Nat × Str) :=
  [(2, "white".data), (1, "silk".data), (1, "jacket".data),
   (1, "any".data), (1, "shoes".data)]

def demoPieces4 : List (Nat × Str) :=
  [(2, "white".data), (1, "silk".data), (1, "jacket".data), (1, "any".data)]

/-- The `(key, entries)` pair a single line contributes to the table
(`none` for blank or unparseable lines). -/
def lineEntry (raw : Str) : Option ((Int × Int) × List KeywordEntry) :=
  let line := pyLower (pyStrip raw)
  if line = [] then none
  else
    match pyInt ((line.drop 1).take 2), pyInt ((line.drop 5).take 2) with
    | some list_number, some sentence_number =>
      some ((list_number, sentence_number),
        ((splitOnChar ' ' (line.drop 7)).filter (fun w => w ≠ [])).map word_alternatives)
    | _, _ => none

/-- One step of scanning for the last line that writes a given key. -/
def lastStep (k : Int × Int) (acc : Option (List KeywordEntry)) (line : Str) :
    Option (List KeywordEntry) :=
  match lineEntry line with
  | some kv => if kv.1 = k then some kv.2 else acc
  | none => acc

/-- The keyword entries of the last input line that parses to key `k`. -/
def lastFor (k : Int × Int) (lines : List Str) : Option (List KeywordEntry) :=
  lines.foldl (lastStep k) none

theorem splitOnChar_ne_nil (sep : Char) (s : Str) : splitOnChar sep s ≠ [] := by
  induction s with
  | nil => simp [splitOnChar]
  | cons c rest ih =>
    obtain ⟨p, ps, h⟩ := List.exists_cons_of_ne_nil ih
    rw [splitOnChar, h]
    dsimp only
    split <;> simp

theorem splitOnChar_cons_self (sep : Char) (z : Str) :
    splitOnChar sep (sep :: z) = [] :: splitOnChar sep z := by
  obtain ⟨p, ps, h⟩ := List.exists_cons_of_ne_nil (splitOnChar_ne_nil sep z)
  rw [splitOnChar, h]
  dsimp only
  rw [if_pos rfl]

theorem splitOnChar_length (sep : Char) (s : Str) :
    (splitOnChar sep s).length = s.count sep + 1 := by
  induction s with
  | nil => simp [splitOnChar]
  | cons c rest ih =>
    obtain ⟨p, ps, h⟩ := List.exists_cons_of_ne_nil (splitOnChar_ne_nil sep rest)
    rw [splitOnChar, h]
    dsimp only
    rw [h] at ih
    by_cases hc : c = sep
    · subst hc
      rw [if_pos rfl, List.count_cons_self]
      simp only [List.length_cons] at *
      omega
    · rw [if_neg hc, List.count_cons_of_ne (fun hs => hc hs.symm)]
      simp only [List.length_cons] at *
      omega

theorem sepJoin_splitOnChar (sep : Char) (s : Str) :
    sepJoin sep (splitOnChar sep s) = s := by
  induction s with
  | nil => simp [splitOnChar, sepJoin]
  | cons c rest ih =>
    obtain ⟨p, ps, h⟩ := List.exists_cons_of_ne_nil (splitOnChar_ne_nil sep rest)
    rw [splitOnChar, h]
    dsimp only
    rw [h] at ih
    by_cases hc : c = sep
    · subst hc
      rw [if_pos rfl]
      show [] ++ _ :: sepJoin _ (p :: ps) = _
      rw [ih, List.nil_append]
    · rw [if_neg hc]
      cases ps with
      | nil =>
        show c :: p = c :: rest
        simp only [sepJoin] at ih
        rw [ih]
      | cons q qs =>
        show (c :: p) ++ _ :: sepJoin _ (q :: qs) = _
        simp only [sepJoin] at ih
        rw [List.cons_append, ih]

theorem not_mem_of_mem_splitOnChar (sep : Char) (s p : Str)
    (hp : p ∈ splitOnChar sep s) : sep ∉ p := by
  induction s generalizing p with
  | nil =>
    simp [splitOnChar] at hp
    subst hp; simp
  | cons c rest ih =>
    obtain ⟨q, qs, h⟩ := List.exists_cons_of_ne_nil (splitOnChar_ne_nil sep rest)
    rw [splitOnChar, h] at hp
    dsimp only at hp
    by_cases hc : c = sep
    · rw [if_pos hc] at hp
      rcases List.mem_cons.mp hp with hp | hp
      · subst hp; simp
      · exact ih p (by rw [h]; exact hp)
    · rw [if_neg hc] at hp
      rcases List.mem_cons.mp hp with hp | hp
      · subst hp
        intro hmem
        rcases List.mem_cons.mp hmem with hmem | hmem
        · exact hc hmem.symm
        · exact ih q (by rw [h]; exact List.mem_cons_self q qs) hmem
      · exact ih p (by rw [h]; exact List.mem_cons_of_mem q hp)

theorem mem_of_mem_splitOnChar (sep : Char) (s p : Str) (c' : Char)
    (hp : p ∈ splitOnChar sep s) (hc : c' ∈ p) : c' ∈ s := by
  induction s generalizing p with
  | nil =>
    simp [splitOnChar] at hp
    subst hp; simp at hc
  | cons c rest ih =>
    obtain ⟨q, qs, h⟩ := List.exists_cons_of_ne_nil (splitOnChar_ne_nil sep rest)
    rw [splitOnChar, h] at hp
    dsimp only at hp
    by_cases hceq : c = sep
    · rw [if_pos hceq] at hp
      rcases List.mem_cons.mp hp with hp | hp
      · subst hp; simp at hc
      · exact List.mem_cons_of_mem c (ih p (by rw [h]; exact hp) hc)
    · rw [if_neg hceq] at hp
      rcases List.mem_cons.mp hp with hp | hp
      · subst hp
        rcases List.mem_cons.mp hc with hc | hc
        · rw [hc]; exact List.mem_cons_self c rest
        · exact List.mem_cons_of_mem c
            (ih q (by rw [h]; exact List.mem_cons_self q qs) hc)
      · exact List.mem_cons_of_mem c
          (ih p (by rw [h]; exact List.mem_cons_of_mem q hp) hc)

theorem splitOnChar_of_not_mem (sep : Char) (s : Str) (h : sep ∉ s) :
    splitOnChar sep s = [s] := by
  induction s with
  | nil => simp [splitOnChar]
  | cons c rest ih =>
    have hc : c ≠ sep := fun he => h (he ▸ List.mem_cons_self c rest)
    have hrest : sep ∉ rest := fun hm => h (List.mem_cons_of_mem c hm)
    rw [splitOnChar, ih hrest]
    dsimp only
    rw [if_neg hc]

theorem splitOnChar_token_append (sep : Char) (t z : Str) (h : sep ∉ t) :
    splitOnChar sep (t ++ sep :: z) = t :: splitOnChar sep z := by
  induction t with
  | nil => simpa using splitOnChar_cons_self sep z
  | cons c t' ih =>
    have hc : c ≠ sep := fun he => h (he ▸ List.mem_cons_self c t')
    have ht' : sep ∉ t' := fun hm => h (List.mem_cons_of_mem c hm)
    rw [List.cons_append, splitOnChar, ih ht']
    dsimp only
    rw [if_neg hc]

/-- C1: ingesting the full embedded `key_word_list` yields a table of
exactly 72 entries with pairwise-distinct `(list_index, sentence_index)`
keys, every list index in `[0, 11]` and every sentence index in `[0, 5]`. -/
theorem claim_C1 :
    all_keyword_dict.isSome = true ∧
    (tableOf all_keyword_dict).length = 72 ∧
    ((tableOf all_keyword_dict).map Prod.fst).Nodup ∧
    ∀ kv ∈ tableOf all_keyword_dict,
      0 ≤ kv.1.1 ∧ kv.1.1 ≤ 11 ∧ 0 ≤ kv.1.2 ∧ kv.1.2 ≤ 5 := by
  decide

/-- C3: `word_alternatives` splits a token containing `/` into the list of
substrings between the slashes (joining them back with `/` recovers the
token and no part contains `/`), returns a slash-free token unchanged as a
singleton, preserves case, and in particular maps `"tear/Tara"` to
`["tear", "Tara"]` and `"jacket"` to `["jacket"]`. -/
theorem claim_C3 : ∀ s : Str,
    ('/' ∈ s →
      sepJoin '/' (word_alternatives s) = s ∧
      (∀ p ∈ word_alternatives s, '/' ∉ p) ∧
      2 ≤ (word_alternatives s).length) ∧
    ('/' ∉ s → word_alternatives s = [s]) ∧
    word_alternatives "tear/Tara".data = ["tear".data, "Tara".data] ∧
    word_alternatives "jacket".data = ["jacket".data] := by
  intro s
  refine ⟨fun hmem => ?_, fun hmem => ?_, by decide, by decide⟩
  · rw [word_alternatives, if_pos hmem]
    refine ⟨sepJoin_splitOnChar _ _, fun p hp => not_mem_of_mem_splitOnChar _ _ _ hp, ?_⟩
    rw [splitOnChar_length]
    have : 0 < s.count '/' := List.count_pos_iff.mpr hmem
    omega
  · rw [word_alternatives, if_neg hmem]

theorem claim_C3_witness :
    sepJoin '/' (word_alternatives "tear/Tara".data) = "tear/Tara".data :=
  ((claim_C3 "tear/Tara".data).1 (by decide)).1

/-- C10: a token with `n ≥ 1` slashes yields exactly `n + 1` spellings, and
these can be empty: `word_alternatives "word/" = ["word", ""]`, so the
alternative list is not guaranteed to contain only non-empty spellings. -/
theorem claim_C10 :
    (∀ s : Str, 1 ≤ s.count '/' → (word_alternatives s).length = s.count '/' + 1) ∧
    word_alternatives "word/".data = ["word".data, []] ∧
    [] ∈ word_alternatives "word/".data := by
  refine ⟨fun s hc => ?_, by decide, by decide⟩
  have hmem : '/' ∈ s := by
    rcases List.count_pos_iff.mp (by omega : 0 < s.count '/') with h
    exact h
  rw [word_alternatives, if_pos hmem, splitOnChar_length]

theorem claim_C10_witness :
    (word_alternatives "word/".data).length = "word/".data.count '/' + 1 :=
  claim_C10.1 "word/".data (by decide)

/-- C4: on a response of two result segments, each with one alternative
holding two timed words, `parse_transcript` returns exactly the six entries
word, word, sentinel, word, word, sentinel in segment order, with words
lowercased, times taken from the offsets, and each sentinel `"."` carrying
its segment's last word's end time as both start and end. -/
theorem claim_C4 :
    ∀ (w1 w2 w3 w4 tr1 tr2 : Str) (t1 t2 t3 t4 t5 t6 t7 t8 : ℚ),
    parse_transcript
      ⟨[⟨some [⟨[⟨w1, ⟨t1⟩, ⟨t2⟩⟩, ⟨w2, ⟨t3⟩, ⟨t4⟩⟩], tr1⟩]⟩,
        ⟨some [⟨[⟨w3, ⟨t5⟩, ⟨t6⟩⟩, ⟨w4, ⟨t7⟩, ⟨t8⟩⟩], tr2⟩]⟩]⟩ =
      some [⟨pyLower w1, t1, t2⟩, ⟨pyLower w2, t3, t4⟩, ⟨['.'], t4, t4⟩,
            ⟨pyLower w3, t5, t6⟩, ⟨pyLower w4, t7, t8⟩, ⟨['.'], t8, t8⟩] := by
  intros
  rfl

theorem goResults_skip (r : SpeechResult)
    (hr : r.alternatives = none ∨ r.alternatives = some [])
    (pre post : List SpeechResult) (acc : List RecogResult) (lastEnd : Option ℚ) :
    goResults (pre ++ r :: post) acc lastEnd = goResults (pre ++ post) acc lastEnd := by
  induction pre generalizing acc lastEnd with
  | nil =>
    simp only [List.nil_append]
    rcases hr with h | h <;> · rw [goResults, h]
  | cons x pre' ih =>
    simp only [List.cons_append]
    rw [goResults, goResults]
    cases hx : x.alternatives with
    | none => exact ih acc lastEnd
    | some alts =>
      cases alts with
      | nil => exact ih acc lastEnd
      | cons alt others =>
        dsimp only
        cases hpw : processWords alt.words acc lastEnd with
        | mk acc' le' =>
          cases le' with
          | none => rfl
          | some e => exact ih _ _

/-- C5: a result segment whose alternatives list is absent or empty is
skipped entirely: it contributes no word entries and no sentinel, and
`parse_transcript` behaves exactly as if the segment were not there (in
particular it does not fail on its account). -/
theorem claim_C5 :
    ∀ (pre post : List SpeechResult) (r : SpeechResult),
    (r.alternatives = none ∨ r.alternatives = some []) →
    parse_transcript ⟨pre ++ r :: post⟩ = parse_transcript ⟨pre ++ post⟩ := by
  intro pre post r hr
  exact goResults_skip r hr pre post [] none

theorem claim_C5_witness :
    parse_transcript ⟨[⟨none⟩]⟩ = parse_transcript ⟨[]⟩ :=
  claim_C5 [] [] ⟨none⟩ (Or.inl rfl)

/-- C9: a segment with a non-empty alternatives list always gets a sentinel,
even when its best alternative has no words: if such a word-less segment is
the first non-skipped one, `parse_transcript` fails (the `end_time` used for
the sentinel was never assigned, modelled as `none`); if it follows a
segment that had words, its sentinel repeats the previous segment's last
word's end time. -/
theorem claim_C9 :
    (∀ (tr : Str) (post : List SpeechResult),
      parse_transcript ⟨⟨some [⟨[], tr⟩]⟩ :: post⟩ = none) ∧
    (∀ (w tr1 tr2 : Str) (t1 t2 : ℚ),
      parse_transcript
        ⟨[⟨some [⟨[⟨w, ⟨t1⟩, ⟨t2⟩⟩], tr1⟩]⟩, ⟨some [⟨[], tr2⟩]⟩]⟩ =
        some [⟨pyLower w, t1, t2⟩, ⟨['.'], t2, t2⟩, ⟨['.'], t2, t2⟩]) := by
  exact ⟨fun tr post => rfl, fun w tr1 tr2 t1 t2 => rfl⟩

theorem mem_keys_dictInsert {K V : Type} [DecidableEq K]
    (d : List (K × V)) (k k' : K) (v : V) :
    k' ∈ (dictInsert d k v).map Prod.fst ↔ k' = k ∨ k' ∈ d.map Prod.fst := by
  induction d with
  | nil => simp [dictInsert]
  | cons kv rest ih =>
    obtain ⟨k0, v0⟩ := kv
    rw [dictInsert]
    by_cases h : k0 = k
    · subst h
      rw [if_pos rfl]
      simp
    · rw [if_neg h]
      simp only [List.map_cons, List.mem_cons, ih]
      tauto

theorem recognizeLoop_calls (rec : Str → RecognizeResponse) (files : List Str)
    (d : List (Str × RecognizeResponse)) (c : List Str) :
    (recognizeLoop rec files d c).2 =
      c ++ files.filter (fun f => !containsSub "Calibration".data f) := by
  induction files generalizing d c with
  | nil => simp [recognizeLoop]
  | cons f rest ih =>
    rw [recognizeLoop]
    by_cases h : containsSub "Calibration".data f
    · rw [if_pos h, ih]
      simp [List.filter_cons, h]
    · rw [if_neg h, ih]
      simp [List.filter_cons, h]

theorem recognizeLoop_keys (rec : Str → RecognizeResponse) (files : List Str)
    (d : List (Str × RecognizeResponse)) (c : List Str) (k : Str) :
    (k ∈ (recognizeLoop rec files d c).1.map Prod.fst ↔
      k ∈ d.map Prod.fst ∨
        k ∈ (files.filter (fun f => !containsSub "Calibration".data f)).map basename) := by
  induction files generalizing d c with
  | nil => simp [recognizeLoop]
  | cons f rest ih =>
    rw [recognizeLoop]
    by_cases h : containsSub "Calibration".data f
    · rw [if_pos h, ih]
      simp [List.filter_cons, h]
    · rw [if_neg h, ih]
      simp only [List.filter_cons, h, Bool.not_false, if_pos, List.map_cons,
        List.mem_cons, mem_keys_dictInsert]
      tauto

/-- C7: `recognize_all_spin` calls the recognition collaborator exactly once
per input file whose name does not contain `"Calibration"`, in input order,
and its result dictionary is keyed by the base names of exactly those files;
on `["a.wav", "Calibration_1.wav", "b.wav"]` it makes exactly the two calls
`a.wav`, `b.wav` and returns exactly the keys `a.wav`, `b.wav`. -/
theorem claim_C7 :
    (∀ (files : List Str) (rec : Str → RecognizeResponse),
      (recognize_all_spin files rec).2 =
        files.filter (fun f => !containsSub "Calibration".data f)) ∧
    (∀ (files : List Str) (rec : Str → RecognizeResponse) (k : Str),
      k ∈ (recognize_all_spin files rec).1.map Prod.fst ↔
        k ∈ (files.filter (fun f => !containsSub "Calibration".data f)).map basename) ∧
    (∀ rec : Str → RecognizeResponse,
      (recognize_all_spin ["a.wav".data, "Calibration_1.wav".data, "b.wav".data] rec).2 =
        ["a.wav".data, "b.wav".data] ∧
      (recognize_all_spin ["a.wav".data, "Calibration_1.wav".data, "b.wav".data]
          rec).2.length = 2 ∧
      (recognize_all_spin ["a.wav".data, "Calibration_1.wav".data, "b.wav".data]
          rec).1.map Prod.fst = ["a.wav".data, "b.wav".data]) := by
  refine ⟨fun files rec => recognizeLoop_calls rec files [] [],
          fun files rec k => by simpa using recognizeLoop_keys rec files [] [] k,
          fun rec => ⟨rfl, rfl, rfl⟩⟩

theorem toNat_ofNat_valid (n : Nat) (h : n < 55296) : (Char.ofNat n).toNat = n := by
  rw [Char.ofNat, dif_pos (Or.inl h)]
  rfl

theorem char_eq_of_toNat_eq {c d : Char} (h : c.toNat = d.toNat) : c = d := by
  have h2 := congrArg Char.ofNat h
  rwa [Char.ofNat_toNat, Char.ofNat_toNat] at h2

theorem toLower_toNat (c : Char) :
    (Char.toLower c).toNat =
      if 65 ≤ c.toNat ∧ c.toNat ≤ 90 then c.toNat + 32 else c.toNat := by
  simp only [Char.toLower]
  by_cases h : 65 ≤ c.toNat ∧ c.toNat ≤ 90
  · rw [if_pos ⟨h.1, h.2⟩, if_pos h, toNat_ofNat_valid]
    omega
  · rw [if_neg h, if_neg h]

theorem toLower_idem (c : Char) :
    Char.toLower (Char.toLower c) = Char.toLower c := by
  apply char_eq_of_toNat_eq
  by_cases h : 65 ≤ c.toNat ∧ c.toNat ≤ 90
  · have h2 : (Char.toLower c).toNat = c.toNat + 32 := by
      rw [toLower_toNat, if_pos h]
    rw [toLower_toNat, h2, if_neg (by omega)]
  · have h2 : (Char.toLower c).toNat = c.toNat := by
      rw [toLower_toNat, if_neg h]
    rw [toLower_toNat, h2, if_neg h]

theorem goodChar_toLower (c : Char) (h : goodChar c) : goodChar (Char.toLower c) := by
  unfold goodChar at *
  rw [toLower_toNat]
  split_ifs with h' <;> omega

theorem pyIsSpace_eq_false_of_good (c : Char) (h : goodChar c) :
    pyIsSpace c = false := by
  unfold goodChar at h
  rw [pyIsSpace, decide_eq_false_iff_not]
  omega

theorem ne_space_of_good (c : Char) (h : goodChar c) : c ≠ ' ' := by
  intro he
  rw [he] at h
  exact absurd h.1 (by decide)

theorem toLower_digitChar : ∀ d < 10, Char.toLower (digitChar d) = digitChar d := by
  decide

theorem pyInt_space_digit : ∀ d < 10, pyInt [' ', digitChar d] = some (d : Int) := by
  decide

theorem pyInt_two_digit :
    ∀ l < 100, 10 ≤ l → pyInt [digitChar (l / 10), digitChar (l % 10)] = some (l : Int) := by
  decide

theorem pyStrip_eq_self (c0 : Char) (u : Str) (c1 : Char)
    (h0 : pyIsSpace c0 = false) (h1 : pyIsSpace c1 = false) :
    pyStrip (c0 :: (u ++ [c1])) = c0 :: (u ++ [c1]) := by
  unfold pyStrip
  rw [List.dropWhile_cons, if_neg (by rw [h0]; exact Bool.false_ne_true)]
  have hsh : (c0 :: (u ++ [c1])) = (c0 :: u) ++ [c1] := by simp
  rw [hsh, List.reverse_append]
  simp only [List.reverse_singleton, List.singleton_append]
  rw [List.dropWhile_cons, if_neg (by rw [h1]; exact Bool.false_ne_true)]
  simp

theorem spaceJoin_concat_form (ps : List (Nat × Str)) (hps : ps ≠ [])
    (hne : ∀ p ∈ ps, p.2 ≠ []) :
    ∃ u c, spaceJoin ps = u ++ [c] ∧ ∃ p ∈ ps, c ∈ p.2 := by
  induction ps with
  | nil => exact absurd rfl hps
  | cons q tail ih =>
    by_cases htail : tail = []
    · subst htail
      have hq : q.2 ≠ [] := hne q (List.mem_cons_self q [])
      obtain ⟨u', c, hu'⟩ :
          ∃ u' c, q.2 = u' ++ [c] := by
        have h := List.getLast?_eq_some_iff.mp
          (List.getLast?_eq_getLast_of_ne_nil hq)
        obtain ⟨ys, hys⟩ := h
        exact ⟨ys, q.2.getLast hq, hys⟩
      refine ⟨List.replicate q.1 ' ' ++ u', c, ?_, q, List.mem_cons_self q [], ?_⟩
      · show List.replicate q.1 ' ' ++ q.2 ++ spaceJoin [] = _
        rw [hu']
        simp [spaceJoin]
      · rw [hu']
        exact List.mem_append_right u' (List.mem_cons_self c [])
    · obtain ⟨u', c, hu', p, hp, hc⟩ :=
        ih htail (fun p hp => hne p (List.mem_cons_of_mem q hp))
      refine ⟨List.replicate q.1 ' ' ++ q.2 ++ u', c, ?_, p, List.mem_cons_of_mem q hp, hc⟩
      show List.replicate q.1 ' ' ++ q.2 ++ spaceJoin tail = _
      rw [hu']
      simp

theorem splitOnChar_replicate (sep : Char) (n : Nat) (z : Str) :
    splitOnChar sep (List.replicate n sep ++ z) =
      List.replicate n [] ++ splitOnChar sep z := by
  induction n with
  | zero => simp
  | succ m ih =>
    rw [List.replicate_succ, List.cons_append, splitOnChar_cons_self, ih,
      List.replicate_succ, List.cons_append]

theorem split_filter_spaceJoin (ps : List (Nat × Str))
    (h : ∀ p ∈ ps, 1 ≤ p.1 ∧ p.2 ≠ [] ∧ ' ' ∉ p.2) :
    (splitOnChar ' ' (spaceJoin ps)).filter (fun w => w ≠ []) = ps.map Prod.snd := by
  induction ps with
  | nil => simp [spaceJoin, splitOnChar]
  | cons q tail ih =>
    obtain ⟨hg, hqne, hqs⟩ := h q (List.mem_cons_self q tail)
    have htail : ∀ p ∈ tail, 1 ≤ p.1 ∧ p.2 ≠ [] ∧ ' ' ∉ p.2 :=
      fun p hp => h p (List.mem_cons_of_mem q hp)
    have hjoin : spaceJoin (q :: tail) =
        List.replicate q.1 ' ' ++ (q.2 ++ spaceJoin tail) := by
      show List.replicate q.1 ' ' ++ q.2 ++ spaceJoin tail = _
      simp
    rw [hjoin, splitOnChar_replicate, List.filter_append]
    have hrep : (List.replicate q.1 ([] : Str)).filter (fun w => w ≠ []) = [] := by
      simp
    rw [hrep, List.nil_append]
    cases tail with
    | nil =>
      rw [show spaceJoin [] = [] from rfl, List.append_nil,
        splitOnChar_of_not_mem ' ' q.2 hqs]
      simp [hqne]
    | cons r tail' =>
      obtain ⟨hr1, hrne, hrs⟩ := htail r (List.mem_cons_self r tail')
      obtain ⟨m, hm⟩ : ∃ m, r.1 = m + 1 := by
        cases hh : r.1 with
        | zero => omega
        | succ m => exact ⟨m, rfl⟩
      have hjoin2 : spaceJoin (r :: tail') =
          ' ' :: (List.replicate m ' ' ++ r.2 ++ spaceJoin tail') := by
        show List.replicate r.1 ' ' ++ r.2 ++ spaceJoin tail' = _
        rw [hm, List.replicate_succ]
        simp
      rw [hjoin2, splitOnChar_token_append ' ' q.2 _ hqs]
      rw [hjoin2, splitOnChar_cons_self] at ih
      rw [List.filter_cons_of_pos (by simp [hqne]), List.map_cons]
      have := ih htail
      rw [List.filter_cons_of_neg (by simp)] at this
      rw [this]

theorem pyLower_spaceJoin (ps : List (Nat × Str)) :
    pyLower (spaceJoin ps) = spaceJoin (ps.map fun p => (p.1, pyLower p.2)) := by
  induction ps with
  | nil => rfl
  | cons q tail ih =>
    show pyLower (List.replicate q.1 ' ' ++ q.2 ++ spaceJoin tail) =
      List.replicate q.1 ' ' ++ pyLower q.2 ++
        spaceJoin (tail.map fun p => (p.1, pyLower p.2))
    unfold pyLower at *
    rw [List.map_append, List.map_append, List.map_replicate,
      show Char.toLower ' ' = ' ' from rfl, ih]

theorem drop1take2 (a b c : Char) (t : Str) :
    ((a :: b :: c :: t).drop 1).take 2 = [b, c] := rfl

theorem drop5take2 (a b c d e f g : Char) (t : Str) :
    ((a :: b :: c :: d :: e :: f :: g :: t).drop 5).take 2 = [f, g] := rfl

theorem drop7 (a b c d e f g : Char) (t : Str) :
    (a :: b :: c :: d :: e :: f :: g :: t).drop 7 = t := rfl

theorem lowPieces_good (ps : List (Nat × Str)) (hgood : ∀ p ∈ ps, goodPiece p) :
    ∀ p ∈ ps.map fun p => (p.1, pyLower p.2),
      1 ≤ p.1 ∧ p.2 ≠ [] ∧ ' ' ∉ p.2 := by
  intro p hp
  obtain ⟨q, hq, rfl⟩ := List.mem_map.mp hp
  obtain ⟨h1, h2, h3⟩ := hgood q hq
  refine ⟨h1, ?_, ?_⟩
  · simpa [pyLower] using h2
  · intro hmem
    obtain ⟨c, hc, hlc⟩ := List.mem_map.mp hmem
    exact ne_space_of_good (Char.toLower c) (goodChar_toLower c (h3 c hc)) hlc

theorem pyLower_append (a b : Str) : pyLower (a ++ b) = pyLower a ++ pyLower b :=
  List.map_append _ _ _

theorem pyLower_header_lt (l s : Nat) (hl : l < 10) (hs : s < 10) :
    pyLower (mkHeader l s) =
      'l' :: ' ' :: digitChar l :: ' ' :: 's' :: ' ' :: [digitChar s] := by
  unfold mkHeader
  rw [if_pos hl]
  show pyLower ('L' :: ' ' :: digitChar l :: ' ' :: 'S' :: ' ' :: [digitChar s]) = _
  unfold pyLower
  simp only [List.map_cons, List.map_nil, toLower_digitChar l hl, toLower_digitChar s hs,
    show Char.toLower 'L' = 'l' from rfl, show Char.toLower 'S' = 's' from rfl,
    show Char.toLower ' ' = ' ' from rfl]

theorem pyLower_header_ge (l s : Nat) (hl10 : ¬ l < 10) (hl : l < 100) (hs : s < 10) :
    pyLower (mkHeader l s) =
      'l' :: digitChar (l / 10) :: digitChar (l % 10) :: ' ' :: 's' :: ' ' ::
        [digitChar s] := by
  unfold mkHeader
  rw [if_neg hl10]
  show pyLower ('L' :: digitChar (l / 10) :: digitChar (l % 10) :: ' ' :: 'S' :: ' ' ::
    [digitChar s]) = _
  unfold pyLower
  simp only [List.map_cons, List.map_nil,
    toLower_digitChar (l / 10) (by omega), toLower_digitChar (l % 10) (by omega),
    toLower_digitChar s hs,
    show Char.toLower 'L' = 'l' from rfl, show Char.toLower 'S' = 's' from rfl,
    show Char.toLower ' ' = ' ' from rfl]

/-- Evaluation of the loop body on a well-formed constructed line: the line
is parsed back into its list index, sentence index and per-token keyword
entries; the entry is inserted and a warning is logged exactly when the
entry count differs from 5. -/
theorem ingest_line_mkLine (st : IngestState) (l s : Nat) (hl : l < 100)
    (hs : s < 10) (ps : List (Nat × Str)) (hps : ps ≠ [])
    (hgood : ∀ p ∈ ps, goodPiece p) :
    ingest_line st (mkLine l s ps) =
      some { dict := dictInsert st.dict ((l : Int), (s : Int)) (entriesOf ps),
             warnings :=
               if (entriesOf ps).length ≠ 5
               then st.warnings ++ [((l : Int), (s : Int), entriesOf ps)]
               else st.warnings } := by
  have hne2 : ∀ p ∈ ps, p.2 ≠ [] := fun p hp => (hgood p hp).2.1
  obtain ⟨u, cl, hsj, p, hp, hcp⟩ := spaceJoin_concat_form ps hps hne2
  have hclgood : goodChar cl := (hgood p hp).2.2 cl hcp
  obtain ⟨hrest, hhead⟩ : ∃ hrest, mkHeader l s = 'L' :: hrest := by
    unfold mkHeader
    split_ifs
    · exact ⟨_, rfl⟩
    · exact ⟨_, rfl⟩
  have hline : mkLine l s ps = 'L' :: ((hrest ++ u) ++ [cl]) := by
    unfold mkLine
    rw [hhead, hsj]
    simp
  have hstrip : pyStrip (mkLine l s ps) = mkLine l s ps := by
    rw [hline]
    exact pyStrip_eq_self 'L' (hrest ++ u) cl (by decide)
      (pyIsSpace_eq_false_of_good cl hclgood)
  have hsplit := split_filter_spaceJoin _ (lowPieces_good ps hgood)
  have hkeys :
      (((ps.map fun p => (p.1, pyLower p.2)).map Prod.snd).map word_alternatives)
        = entriesOf ps := by
    rw [List.map_map, List.map_map]
    rfl
  by_cases hl10 : l < 10
  · have hlower : pyLower (mkLine l s ps) =
        'l' :: ' ' :: digitChar l :: ' ' :: 's' :: ' ' :: digitChar s ::
          spaceJoin (ps.map fun p => (p.1, pyLower p.2)) := by
      unfold mkLine
      rw [pyLower_append, pyLower_header_lt l s hl10 hs, pyLower_spaceJoin]
      rfl
    simp only [ingest_line, hstrip, hlower, drop1take2, drop5take2, drop7]
    rw [if_neg (List.cons_ne_nil _ _), pyInt_space_digit l hl10, pyInt_space_digit s hs]
    dsimp only
    rw [hsplit, hkeys]
  · have hlower : pyLower (mkLine l s ps) =
        'l' :: digitChar (l / 10) :: digitChar (l % 10) :: ' ' :: 's' :: ' ' ::
          digitChar s :: spaceJoin (ps.map fun p => (p.1, pyLower p.2)) := by
      unfold mkLine
      rw [pyLower_append, pyLower_header_ge l s hl10 hl hs, pyLower_spaceJoin]
      rfl
    simp only [ingest_line, hstrip, hlower, drop1take2, drop5take2, drop7]
    rw [if_neg (List.cons_ne_nil _ _), pyInt_two_digit l hl (by omega),
      pyInt_space_digit s hs]
    dsimp only
    rw [hsplit, hkeys]

theorem ingest_single (line : Str) :
    ingest_spin_keyword_lists [line] =
      ingest_line { dict := [], warnings := [] } line := by
  unfold ingest_spin_keyword_lists
  cases h : ingest_line { dict := [], warnings := [] } line with
  | none => simp [List.foldlM, h]
  | some st => simp [List.foldlM, h]

/-- C2: a line in the table's column layout whose token region holds exactly
five space-separated tokens (any gap widths: empty tokens from repeated
spaces are discarded) produces exactly five keyword entries for its
`(list, sentence)` key, every spelling of every entry lowercase, with no
warning. -/
theorem claim_C2 :
    ∀ (l s : Nat), l < 100 → s < 10 →
    ∀ ps : List (Nat × Str), (∀ p ∈ ps, goodPiece p) → ps.length = 5 →
    ingest_spin_keyword_lists [mkLine l s ps] =
      some { dict := [(((l : Int), (s : Int)), entriesOf ps)], warnings := [] } ∧
    (entriesOf ps).length = 5 ∧
    (∀ e ∈ entriesOf ps, ∀ w ∈ e, pyLower w = w) := by
  intro l s hl hs ps hgood hlen
  have hps : ps ≠ [] := by
    intro h
    rw [h] at hlen
    simp at hlen
  have hentlen : (entriesOf ps).length = 5 := by
    unfold entriesOf
    rw [List.length_map]
    exact hlen
  refine ⟨?_, hentlen, ?_⟩
  · rw [ingest_single, ingest_line_mkLine _ l s hl hs ps hps hgood,
      if_neg (by omega)]
    rfl
  · intro e he w hw
    obtain ⟨q, hq, rfl⟩ := List.mem_map.mp he
    have hchars : ∀ c ∈ w, c ∈ pyLower q.2 := by
      intro c hc
      unfold word_alternatives at hw
      by_cases hsl : '/' ∈ pyLower q.2
      · rw [if_pos hsl] at hw
        exact mem_of_mem_splitOnChar '/' _ w c hw hc
      · rw [if_neg hsl] at hw
        have hweq := List.mem_singleton.mp hw
        rw [hweq] at hc
        exact hc
    unfold pyLower
    have hfix : ∀ c ∈ w, Char.toLower c = c := by
      intro c hc
      obtain ⟨d, hd, rfl⟩ := List.mem_map.mp (hchars c hc)
      exact toLower_idem d
    calc w.map Char.toLower = w.map id := List.map_congr_left hfix
      _ = w := List.map_id w

theorem claim_C2_witness :
    ingest_spin_keyword_lists [mkLine 0 0 demoPieces] =
      some { dict := [(((0 : Int), (0 : Int)), entriesOf demoPieces)],
             warnings := [] } ∧
    (entriesOf demoPieces).length = 5 ∧
    (∀ e ∈ entriesOf demoPieces, ∀ w ∈ e, pyLower w = w) :=
  claim_C2 0 0 (by decide) (by decide) demoPieces (by decide) (by decide)

/-- C6: a well-formed line whose token count is not 5 still parses: from any
state the loop body succeeds, logs a warning holding the `(list, sentence)`
pair and the parsed entries, and still inserts the entry; the single-line
table build completes with the malformed entry present and the warning
logged. -/
theorem claim_C6 :
    ∀ (l s : Nat), l < 100 → s < 10 →
    ∀ ps : List (Nat × Str), (∀ p ∈ ps, goodPiece p) → ps ≠ [] →
    ps.length ≠ 5 →
    (∀ st : IngestState,
      ingest_line st (mkLine l s ps) =
        some { dict := dictInsert st.dict ((l : Int), (s : Int)) (entriesOf ps),
               warnings := st.warnings ++ [((l : Int), (s : Int), entriesOf ps)] }) ∧
    ingest_spin_keyword_lists [mkLine l s ps] =
      some { dict := [(((l : Int), (s : Int)), entriesOf ps)],
             warnings := [((l : Int), (s : Int), entriesOf ps)] } := by
  intro l s hl hs ps hgood hps hlen
  have hentlen : (entriesOf ps).length ≠ 5 := by
    unfold entriesOf
    rw [List.length_map]
    exact hlen
  constructor
  · intro st
    rw [ingest_line_mkLine st l s hl hs ps hps hgood, if_pos hentlen]
  · rw [ingest_single, ingest_line_mkLine _ l s hl hs ps hps hgood,
      if_pos hentlen]
    rfl

theorem claim_C6_witness :
    (∀ st : IngestState,
      ingest_line st (mkLine 3 2 demoPieces4) =
        some { dict := dictInsert st.dict ((3 : Int), (2 : Int)) (entriesOf demoPieces4),
               warnings := st.warnings ++ [((3 : Int), (2 : Int), entriesOf demoPieces4)] }) ∧
    ingest_spin_keyword_lists [mkLine 3 2 demoPieces4] =
      some { dict := [(((3 : Int), (2 : Int)), entriesOf demoPieces4)],
             warnings := [((3 : Int), (2 : Int), entriesOf demoPieces4)] } :=
  claim_C6 3 2 (by decide) (by decide) demoPieces4 (by decide) (by decide) (by decide)

theorem ingest_line_spec (st : IngestState) (raw : Str) :
    (lineEntry raw = none ∧
      (ingest_line st raw = some st ∨ ingest_line st raw = none)) ∨
    (∃ k v, lineEntry raw = some (k, v) ∧
      ingest_line st raw =
        some { dict := dictInsert st.dict k v,
               warnings :=
                 if v.length ≠ 5 then st.warnings ++ [(k.1, k.2, v)]
                 else st.warnings }) := by
  simp only [ingest_line, lineEntry]
  by_cases hb : pyLower (pyStrip raw) = []
  · rw [if_pos hb, if_pos hb]
    exact Or.inl ⟨rfl, Or.inl rfl⟩
  · rw [if_neg hb, if_neg hb]
    cases h1 : pyInt (((pyLower (pyStrip raw)).drop 1).take 2) with
    | none => exact Or.inl ⟨rfl, Or.inr rfl⟩
    | some ln =>
      cases h2 : pyInt (((pyLower (pyStrip raw)).drop 5).take 2) with
      | none => exact Or.inl ⟨rfl, Or.inr rfl⟩
      | some sn => exact Or.inr ⟨(ln, sn), _, rfl, rfl⟩

theorem lastStep_or (k : Int × Int) (a : Option (List KeywordEntry)) (line : Str) :
    lastStep k a line = (lastStep k none line).or a := by
  unfold lastStep
  cases lineEntry line with
  | none => rfl
  | some kv =>
    dsimp only
    by_cases h : kv.1 = k
    · rw [if_pos h, if_pos h]
      rfl
    · rw [if_neg h, if_neg h]
      rfl

theorem foldl_lastStep_or (k : Int × Int) (rest : List Str)
    (a : Option (List KeywordEntry)) :
    rest.foldl (lastStep k) a = (rest.foldl (lastStep k) none).or a := by
  induction rest generalizing a with
  | nil => rfl
  | cons r rest' ih =>
    rw [List.foldl_cons, List.foldl_cons, ih (lastStep k a r),
      ih (lastStep k none r), lastStep_or k a r, Option.or_assoc]

theorem dictLookup_dictInsert {K V : Type} [DecidableEq K]
    (d : List (K × V)) (k q : K) (v : V) :
    dictLookup (dictInsert d k v) q = if k = q then some v else dictLookup d q := by
  induction d with
  | nil =>
    show dictLookup [(k, v)] q = _
    rfl
  | cons kv rest ih =>
    obtain ⟨k0, v0⟩ := kv
    show dictLookup (if k0 = k then (k, v) :: rest else (k0, v0) :: dictInsert rest k v) q
      = _
    by_cases h0 : k0 = k
    · rw [if_pos h0]
      show (if k = q then some v else dictLookup rest q) = _
      by_cases hq : k = q
      · rw [if_pos hq, if_pos hq]
      · rw [if_neg hq, if_neg hq]
        show _ = if k0 = q then some v0 else dictLookup rest q
        rw [if_neg (by rw [h0]; exact hq)]
    · rw [if_neg h0]
      show (if k0 = q then some v0 else dictLookup (dictInsert rest k v) q) = _
      by_cases h0q : k0 = q
      · rw [if_pos h0q, if_neg (fun hkq => h0 (h0q.trans hkq.symm))]
        show _ = if k0 = q then some v0 else dictLookup rest q
        rw [if_pos h0q]
      · rw [if_neg h0q, ih]
        by_cases hkq : k = q
        · rw [if_pos hkq, if_pos hkq]
        · rw [if_neg hkq, if_neg hkq]
          show dictLookup rest q = if k0 = q then some v0 else dictLookup rest q
          rw [if_neg h0q]

theorem ingest_lookup (lines : List Str) (st st' : IngestState)
    (h : lines.foldlM ingest_line st = some st') (k : Int × Int) :
    dictLookup st'.dict k = (lastFor k lines).or (dictLookup st.dict k) := by
  induction lines generalizing st with
  | nil =>
    simp only [List.foldlM] at h
    cases h
    rfl
  | cons line rest ih =>
    rw [List.foldlM_cons] at h
    cases hstep : ingest_line st line with
    | none =>
      rw [hstep] at h
      simp at h
    | some st1 =>
      rw [hstep] at h
      simp only [Option.bind_eq_bind, Option.some_bind] at h
      have hrec := ih st1 h
      have hlf : lastFor k (line :: rest) =
          (lastFor k rest).or (lastStep k none line) := by
        show (line :: rest).foldl (lastStep k) none = _
        rw [List.foldl_cons, foldl_lastStep_or]
        rfl
      rcases ingest_line_spec st line with ⟨hle, hcase⟩ | ⟨k0, v, hle, hig⟩
      · rcases hcase with hcase | hcase
        · rw [hstep] at hcase
          cases hcase
          rw [hlf, hrec]
          have : lastStep k none line = none := by
            unfold lastStep
            rw [hle]
          rw [this, Option.or_none]
        · rw [hstep] at hcase
          cases hcase
      · rw [hstep] at hig
        cases hig
        have hstep2 : lastStep k none line =
            if k0 = k then some v else none := by
          unfold lastStep
          rw [hle]
        rw [hlf, hrec]
        dsimp only
        rw [dictLookup_dictInsert, hstep2]
        cases hlr : lastFor k rest with
        | some x => rfl
        | none =>
          by_cases hk : k0 = k
          · rw [if_pos hk, if_pos hk]
            rfl
          · rw [if_neg hk, if_neg hk]
            rfl

theorem ingest_line_blank (st : IngestState) (raw : Str) (h : pyStrip raw = []) :
    ingest_line st raw = some st := by
  simp only [ingest_line, h]
  rfl

theorem ingest_blank_skip (pre post : List Str) (bl : Str) (hbl : pyStrip bl = []) :
    ingest_spin_keyword_lists (pre ++ bl :: post) =
      ingest_spin_keyword_lists (pre ++ post) := by
  unfold ingest_spin_keyword_lists
  rw [List.foldlM_append, List.foldlM_append]
  cases h : List.foldlM ingest_line { dict := [], warnings := [] } pre with
  | none => simp
  | some st => simp [List.foldlM_cons, ingest_line_blank st bl hbl]

/-- C8: when several lines parse to the same `(list, sentence)` key the
table maps that key to the entries of the last such line (last write wins,
no duplicate check, no error), and blank lines contribute nothing. -/
theorem claim_C8 :
    (∀ (lines : List Str) (st : IngestState),
      ingest_spin_keyword_lists lines = some st →
      ∀ k : Int × Int, dictLookup st.dict k = lastFor k lines) ∧
    (∀ (pre post : List Str) (bl : Str), pyStrip bl = [] →
      ingest_spin_keyword_lists (pre ++ bl :: post) =
        ingest_spin_keyword_lists (pre ++ post)) := by
  constructor
  · intro lines st h k
    have hinv := ingest_lookup lines { dict := [], warnings := [] } st h k
    rw [show dictLookup ({ dict := [], warnings := [] } : IngestState).dict k = none
      from rfl, Option.or_none] at hinv
    exact hinv
  · exact ingest_blank_skip

theorem claim_C8_witness :
    (dictLookup
        ({ dict := [(((0 : Int), (0 : Int)),
            [["f".data], ["g".data], ["h".data], ["i".data], ["j".data]])],
           warnings := [] } : IngestState).dict ((0 : Int), (0 : Int)) =
      lastFor (0, 0) ["L 0 S 0  a b c d e".data, "L 0 S 0  f g h i j".data]) ∧
    ingest_spin_keyword_lists
        (["L 0 S 0  a b c d e".data] ++ "".data :: ["L 0 S 0  f g h i j".data]) =
      ingest_spin_keyword_lists
        (["L 0 S 0  a b c d e".data] ++ ["L 0 S 0  f g h i j".data]) :=
  ⟨claim_C8.1 ["L 0 S 0  a b c d e".data, "L 0 S 0  f g h i j".data] _ (by decide) (0, 0),
   claim_C8.2 ["L 0 S 0  a b c d e".data] ["L 0 S 0  f g h i j".data] "".data (by decide)⟩
